import Mathlib

set_option maxRecDepth 16000

/-!
Verification development for the pngtopi1 image converter
(`src/pngtopi1.c`).  The codec pipeline is shallowly embedded: bytes and
12-bit colors are `Nat` values, buffers are `List Nat`, images are total
functions `Nat → Nat → Nat` from coordinates to sampled RGB444 values,
and fallible operations return `Option`.
-/

namespace Pngtopi1

/-!
## RLE codec (pngtopi1.c: enc_copy, enc_fill, pcx_encode_row, rle_decode)

RLE coding: code 00..7f: copy code+1 bytes [1..128];
code 80..ff: fill next byte 257-code times [2..129].
-/

/-- Model of `enc_copy` (pngtopi1.c:1262-1280): emit the literal bytes `s`
as copy opcodes, chunking into at most 128 bytes per opcode; each chunk of
length `n` is emitted as control byte `n-1` followed by the `n` bytes. -/
def enc_copy (s : List Nat) : List Nat :=
  if h : s = [] then []
  else
    (min s.length 128 - 1) ::
      (s.take (min s.length 128) ++ enc_copy (s.drop (min s.length 128)))
termination_by s.length
decreasing_by
  have hs : 0 < s.length := List.length_pos.mpr h
  simp only [List.length_drop]
  omega

/-- Model of `enc_fill` (pngtopi1.c:1282-1302): emit a run of `l` copies of
byte `v` as fill opcodes of at most 129 bytes; when exactly 130 bytes
remain the chunk is 128 (so the remainder 2 can still be fill-encoded);
each chunk of length `n` is control byte `257-n` followed by `v`. -/
def enc_fill (v : Nat) (l : Nat) : List Nat :=
  if l < 2 then []
  else
    (257 - (if 129 < l then (if l = 130 then 128 else 129) else l)) :: v ::
      enc_fill v (l - (if 129 < l then (if l = 130 then 128 else 129) else l))
termination_by l
decreasing_by
  split_ifs <;> omega

/-- Length of the maximal run of bytes equal to `c` at the front of the
list (the `for (k=i+1; k<len && src[k]==c; ++k)` scan of
`pcx_encode_row`, counting positions after `i`). -/
def countRun (c : Nat) : List Nat → Nat
  | [] => 0
  | x :: xs => if x = c then countRun c xs + 1 else 0

/-- Model of the scan loop of `pcx_encode_row` (pngtopi1.c:1304-1338).
`pending` holds the literal bytes `src[o..i)` not yet flushed; `rest` is
the input from position `i` on.  A maximal run of length `>= 2` flushes
the pending literals as copy opcodes then the run as fill opcodes;
otherwise the head byte joins the pending literals.  At end of input the
pending literals are flushed. -/
def pcx_encode_loop (pending rest : List Nat) : List Nat :=
  match rest with
  | [] => enc_copy pending
  | c :: tl =>
    if 2 ≤ countRun c tl + 1 then
      enc_copy pending ++ enc_fill c (countRun c tl + 1) ++
        pcx_encode_loop [] (tl.drop (countRun c tl))
    else
      pcx_encode_loop (pending ++ [c]) tl
termination_by rest.length
decreasing_by
  · simp only [List.length_drop, List.length_cons]; omega
  · simp only [List.length_cons]; omega

/-- Model of `pcx_encode_row` (pngtopi1.c:1304-1338). -/
def pcx_encode_row (src : List Nat) : List Nat :=
  pcx_encode_loop [] src

/-- Model of the loop of `rle_decode` (pngtopi1.c:1342-1370), accumulating
the decoded bytes in `acc` (the C writes them to `d` and returns the count
`j`).  The budget `dl` mirrors the destination size: an opcode that would
write past it returns -1 in C, `none` here.  Reading opcode operands past
the end of the input is out of bounds in the C (only reachable on
malformed streams); it is modelled as `none`. -/
def rle_decode_loop (dl : Nat) : List Nat → List Nat → Option (List Nat)
  | [], acc => some acc
  | c :: tl, acc =>
    if dl ≤ acc.length then some acc
    else if c < 128 then
      if dl < acc.length + (c + 1) then none
      else if tl.length < c + 1 then none
      else rle_decode_loop dl (tl.drop (c + 1)) (acc ++ tl.take (c + 1))
    else
      if tl.length = 0 then none
      else if dl < acc.length + (257 - c) then none
      else rle_decode_loop dl tl.tail (acc ++ List.replicate (257 - c) tl.headI)
termination_by s _ => s.length
decreasing_by
  · simp only [List.length_drop, List.length_cons]; omega
  · simp only [List.length_tail, List.length_cons]; omega

/-- Model of `rle_decode` (pngtopi1.c:1342-1370): decode the stream `s`
into a destination buffer of `dl` bytes. -/
def rle_decode (dl : Nat) (s : List Nat) : Option (List Nat) :=
  rle_decode_loop dl s []

/-!
## Opcode-level view of the RLE encoder, for the legality claim
-/

/-- One RLE opcode: a copy opcode carrying its literal bytes, or a fill
opcode carrying the repeated value and the run length it covers. -/
inductive RleOp where
  | copy : List Nat → RleOp
  | fill : Nat → Nat → RleOp
deriving DecidableEq

/-- The chunks emitted by `enc_copy`, one `RleOp.copy` per loop pass. -/
def enc_copy_ops (s : List Nat) : List RleOp :=
  if h : s = [] then []
  else RleOp.copy (s.take (min s.length 128)) ::
    enc_copy_ops (s.drop (min s.length 128))
termination_by s.length
decreasing_by
  have hs : 0 < s.length := List.length_pos.mpr h
  simp only [List.length_drop]
  omega

/-- The chunks emitted by `enc_fill`, one `RleOp.fill` per loop pass. -/
def enc_fill_ops (v : Nat) (l : Nat) : List RleOp :=
  if l < 2 then []
  else RleOp.fill v (if 129 < l then (if l = 130 then 128 else 129) else l) ::
    enc_fill_ops v (l - (if 129 < l then (if l = 130 then 128 else 129) else l))
termination_by l
decreasing_by
  split_ifs <;> omega

/-- The opcodes emitted by `pcx_encode_row`, mirroring `pcx_encode_loop`. -/
def pcx_encode_ops (pending rest : List Nat) : List RleOp :=
  match rest with
  | [] => enc_copy_ops pending
  | c :: tl =>
    if 2 ≤ countRun c tl + 1 then
      enc_copy_ops pending ++ enc_fill_ops c (countRun c tl + 1) ++
        pcx_encode_ops [] (tl.drop (countRun c tl))
    else
      pcx_encode_ops (pending ++ [c]) tl
termination_by rest.length
decreasing_by
  · simp only [List.length_drop, List.length_cons]; omega
  · simp only [List.length_cons]; omega

/-- Byte encoding of one opcode: a copy of `n` bytes is control byte `n-1`
followed by the bytes; a fill of run `n` is control byte `257-n` followed
by the value. -/
def opRender : RleOp → List Nat
  | RleOp.copy bs => (bs.length - 1) :: bs
  | RleOp.fill v n => [257 - n, v]

/-- Byte encoding of an opcode sequence. -/
def opsRender : List RleOp → List Nat
  | [] => []
  | op :: ops => opRender op ++ opsRender ops

/-- Legality of one opcode per the format comment of pngtopi1.c:1257-1260:
copy covers 1..128 literal bytes, fill covers a run of 2..129 bytes. -/
def opLegal : RleOp → Bool
  | RleOp.copy bs => decide (1 ≤ bs.length) && decide (bs.length ≤ 128)
  | RleOp.fill _ n => decide (2 ≤ n) && decide (n ≤ 129)

/-!
## The file-reading RLE decoder (pngtopi1.c: rle_read)
-/

/-- Model of the per-row-plane decode loop of `rle_read`
(pngtopi1.c:959-991): `bpp` is `bytes_per_plan`, `s` is the remaining
compressed input, `acc` the bytes decoded so far for this row-plane
(`raw[0..x)`).  Each pass reads a control byte and one operand byte
(`mf_read(mf, rle, 2)`; failure when fewer remain is `none`), checks the
fill or copy against the budget (`x+n > bytes_per_plan` is the
"rle-fill/rle-copy overflow" error, `none` here), and for a copy reads the
remaining `n-1` literal bytes. -/
def rle_read_loop (bpp : Nat) : List Nat → List Nat → Option (List Nat)
  | [], acc => if bpp ≤ acc.length then some acc else none
  | [_], acc => if bpp ≤ acc.length then some acc else none
  | c :: v :: rest, acc =>
    if bpp ≤ acc.length then some acc
    else if 128 ≤ c then
      if bpp < acc.length + (257 - c) then none
      else rle_read_loop bpp rest (acc ++ List.replicate (257 - c) v)
    else
      if bpp < acc.length + (c + 1) then none
      else if rest.length < c then none
      else rle_read_loop bpp (rest.drop c) (acc ++ v :: rest.take c)
termination_by s _ => s.length
decreasing_by
  · simp only [List.length_cons]; omega
  · simp only [List.length_drop, List.length_cons]; omega

/-- Model of decoding one row-plane in `rle_read`: the inner
`for (x=0; x<bytes_per_plan; )` loop starting from an empty buffer. -/
def rle_read_plane (bpp : Nat) (s : List Nat) : Option (List Nat) :=
  rle_read_loop bpp s []

/-!
## Degas format table, color model and palette builder
-/

/-- One entry of the `degas[6]` format table (pngtopi1.c:169-179). -/
structure DegasFmt where
  name : String
  id : Nat
  minsz : Nat
  w : Nat
  h : Nat
  d : Nat
  c : Nat
  rle : Bool

/-- The `degas[6]` format table (pngtopi1.c:169-179). -/
def degas : List DegasFmt :=
  [⟨"PI1", 0x0000, 32034, 320, 200, 2, 16, false⟩,
   ⟨"PC1", 0x8000, 1634, 320, 200, 2, 16, true⟩,
   ⟨"PI2", 0x0001, 32034, 640, 200, 1, 4, false⟩,
   ⟨"PC2", 0x8001, 839, 640, 200, 1, 4, true⟩,
   ⟨"PI3", 0x0002, 32034, 640, 400, 0, 0, false⟩,
   ⟨"PC3", 0x8002, 854, 640, 400, 0, 0, true⟩]

/-- The table entry `degas[i]`. -/
def degasGet (i : Nat) : DegasFmt :=
  degas.getD i ⟨"", 0, 0, 0, 0, 0, 0, false⟩

/-- The dimension scan of `mypix_from_png` (pngtopi1.c:1090-1098):
`for (id=0; id<6; id+=2) if (w == degas[id].w && h == degas[id].h) break`,
`none` modelling the "incompatible image dimension" error. -/
def findFormat (w h : Nat) : Option Nat :=
  List.find? (fun i => (degasGet i).w == w && (degasGet i).h == h) [0, 2, 4]

/-- The color limit `lutmax = 1<<(1<<log2plans)` of `mypix_from_png`
(pngtopi1.c:1101): 2, 4 or 16. -/
def lutmax (d : Nat) : Nat := 1 <<< (1 <<< d)

/-- The `ste_to_std[16]` bit-reordering table (pngtopi1.c:521-526). -/
def ste_to_std : List Nat :=
  [0x0, 0x2, 0x4, 0x6, 0x8, 0xA, 0xC, 0xE, 0x1, 0x3, 0x5, 0x7, 0x9, 0xB, 0xD, 0xF]

/-- Model of `lumi` (pngtopi1.c:893-901): luminance key of an RGB444
value, `r*2 + g*4 + b` on components first mapped through `ste_to_std`. -/
def lumi (x : Nat) : Nat :=
  (ste_to_std.getD (x / 256) 0) * 2 + (ste_to_std.getD (x / 16 % 16) 0) * 4 +
    ste_to_std.getD (x % 16) 0

/-- Ordered insertion by the luminance key. -/
def insertLumi (a : Nat) : List Nat → List Nat
  | [] => [a]
  | b :: l => if lumi a ≤ lumi b then a :: b :: l else b :: insertLumi a l

/-- Model of `sort_colorbright` (pngtopi1.c:915-918): sort colors
ascending by `lumi`.  The C uses `qsort` with comparator `cl_cmp`, which
promises only sortedness by the comparator (the order of `lumi`-ties is
unspecified); this insertion sort delivers the same guarantee. -/
def sort_colorbright (l : List Nat) : List Nat :=
  l.foldr insertLumi []

/-- The sampled pixel sequence of an image: `s->get(png,x,y)` for every
row `y` and every column `x`, in the scan order of the histogram loop of
`mypix_from_png` (pngtopi1.c:1123-1125). -/
def sampledPixels (w h : Nat) (get : Nat → Nat → Nat) : List Nat :=
  (List.range h).flatMap fun y => (List.range w).map fun x => get x y

/-- The distinct colors of the pixel sequence, as the histogram sees them:
the RGB444 values in `[0, 0x1000)` with a non-zero occurrence count
(pngtopi1.c:1118-1141; after `sort_colorcount` these are exactly the
first `x` entries of `colcnt`). -/
def usedColors (pixels : List Nat) : List Nat :=
  (List.range 4096).filter fun c => pixels.count c != 0

/-- The distinct-color count `x` of `mypix_from_png` (pngtopi1.c:1141):
the number of non-zero histogram entries. -/
def ncolors (pixels : List Nat) : Nat :=
  (usedColors pixels).length

/-- The palette assigned to bitplane indices `0..n-1`: the used colors
re-sorted ascending by luminance (`sort_colorbright(colcnt, x)`,
pngtopi1.c:1153, then `lut[y] = colcnt[y].rgb`, pngtopi1.c:1163-1164). -/
def palette (pixels : List Nat) : List Nat :=
  sort_colorbright (usedColors pixels)

/-- The `lut[16]` array after the fill loops of `mypix_from_png`
(pngtopi1.c:1162-1167): entries below the color count hold the palette,
entries from the color count up to 15 hold `0x0F0`. -/
def lutFill (pal : List Nat) (y : Nat) : Nat :=
  if y < pal.length then pal.getD y 0 else 0x0F0

/-- The 16 palette words written to the header area by `mypix_from_png`
(pngtopi1.c:1181-1198): `lut[y]` for `y < lutsiz` where
`lutsiz = degas[id].c`; when `lutsiz` is 0 a single word `0x0FFF` is
written instead (`if (!y) *bits++ = 0xF, *bits++ = 0xFF, ++y`); the
remaining words up to 16 are `0`. -/
def paletteWords (c : Nat) (pal : List Nat) : List Nat :=
  (if c = 0 then (List.range c).map (lutFill pal) ++ [0xFFF]
   else (List.range c).map (lutFill pal)) ++
    List.replicate (16 - (if c = 0 then 1 else c)) 0

/-!
## Bitplane codec
-/

/-- Big-endian accumulation of 16 bits into one word, first list element
at the highest bit (the `bm = 0x8000; ...; bm >>= 1` loop of the blit). -/
def bitsToNat : List Bool → Nat
  | [] => 0
  | b :: bs => (if b then 2 ^ bs.length else 0) + bitsToNat bs

/-- Bit `z` of the palette index of each of the 16 pixels of the tile of
row `y` starting at column `x0` (`idx & (1<<z)` for the 16 pixels of the
block, pngtopi1.c:1220-1227). -/
def tileBits (idx : Nat → Nat → Nat) (y x0 z : Nat) : List Bool :=
  (List.range 16).map fun k => decide (idx (x0 + k) y / 2 ^ z % 2 = 1)

/-- Model of the pixel-blit loop of `mypix_from_png` (pngtopi1.c:1212-1233):
per row, per 16-pixel tile left to right, per bitplane `z`, emit the
plane word big-endian (`*bits++ = bv>>8; *bits++ = bv`). -/
def mypixBlit (idx : Nat → Nat → Nat) (w h d : Nat) : List Nat :=
  (List.range h).flatMap fun y =>
    (List.range (w / 16)).flatMap fun t =>
      (List.range (1 <<< d)).flatMap fun z =>
        [bitsToNat (tileBits idx y (16 * t) z) / 256,
         bitsToNat (tileBits idx y (16 * t) z) % 256]

/-- Model of `get_st_pixel` (pngtopi1.c:620-642): read back the palette
index of pixel `(x, y)` from the interleaved bitplane bytes `bits`
(34-byte header included: `y += 34`).  `(w+15) & -16` is `(w+15)/16*16`,
`(w16 << d) >> 3` is `w16*(1<<d)/8`, `~x & 7` is `7 - x%8`, `(x>>3) & 1`
is `x/8 % 2`; the per-plane `col |=` accumulation is a sum because each
plane contributes a different bit of `col`. -/
def get_st_pixel (bits : List Nat) (w d x y : Nat) : Nat :=
  (List.range (1 <<< d)).foldl
    (fun col p =>
      col +
        bits.getD
            (y * ((w + 15) / 16 * 16 * (1 <<< d) / 8) + x / 16 * 2 ^ (d + 1) +
              x / 8 % 2 + 34 + 2 * p) 0 / 2 ^ (7 - x % 8) % 2 * 2 ^ p)
    0

/-- The two bytes of one palette word as written to the header
(`*bits++ = col >> 8; *bits++ = col`, pngtopi1.c:1190-1191). -/
def wordBytes (v : Nat) : List Nat := [v / 256 % 256, v % 256]

/-- Model of the conversion `mypix_from_png` (pngtopi1.c:1061-1237),
restricted to the codec pipeline: the source image is abstracted as the
total sampler `get` (the depth/channel/color-type dispatch selecting
`s->get` is outside the model); the result is the output buffer
`pix.bits`: 2 signature bytes, 32 palette bytes, then the interleaved
bitplane data.  Failures modelled: unknown dimensions ("incompatible
image dimension") and color-count overflow ("too many colors",
`x > lutmax`).  The reverse look-up (`colcnt[lut[y]].rgb = y`,
pngtopi1.c:1204-1210) maps each accepted palette color to its index;
`List.indexOf` into the duplicate-free palette is exactly that index. -/
def mypixFromPng (w h : Nat) (get : Nat → Nat → Nat) : Option (List Nat) :=
  match findFormat w h with
  | none => none
  | some i =>
    if lutmax (degasGet i).d < ncolors (sampledPixels w h get) then none
    else
      some ([(degasGet i).id / 256, (degasGet i).id % 256] ++
        (paletteWords (degasGet i).c (palette (sampledPixels w h get))).flatMap
          wordBytes ++
        mypixBlit (fun x y => (palette (sampledPixels w h get)).indexOf (get x y))
          w h (degasGet i).d)

theorem countRun_le (c : Nat) (l : List Nat) : countRun c l ≤ l.length := by
  induction l with
  | nil => simp [countRun]
  | cons x xs ih =>
    simp only [countRun, List.length_cons]
    split <;> omega

theorem countRun_take (c : Nat) (l : List Nat) :
    l.take (countRun c l) = List.replicate (countRun c l) c := by
  induction l with
  | nil => simp [countRun]
  | cons x xs ih =>
    simp only [countRun]
    split
    · next hx => subst hx; simp [List.replicate_succ, ih]
    · simp

theorem enc_copy_decode (dl m : Nat) : ∀ (p b acc : List Nat), p.length ≤ m →
    acc.length + p.length ≤ dl →
    rle_decode_loop dl (enc_copy p ++ b) acc = rle_decode_loop dl b (acc ++ p) := by
  induction m with
  | zero =>
    intro p b acc hp _
    have : p = [] := List.length_eq_zero.mp (by omega)
    subst this
    rw [enc_copy]
    simp
  | succ m ih =>
    intro p b acc hp hd
    by_cases hnil : p = []
    · subst hnil; rw [enc_copy]; simp
    · have hpos : 0 < p.length := List.length_pos.mpr hnil
      rw [enc_copy, dif_neg hnil]
      rw [List.cons_append, rle_decode_loop]
      rw [if_neg (by omega), if_pos (by omega)]
      have hn1 : min p.length 128 - 1 + 1 = min p.length 128 := by omega
      rw [hn1]
      have htake : (p.take (min p.length 128)).length = min p.length 128 := by
        simp [List.length_take]
      rw [List.append_assoc]
      rw [if_neg (by omega)]
      rw [if_neg (by simp only [List.length_append, htake]; omega)]
      rw [List.take_left' htake, List.drop_left' htake]
      rw [ih (p.drop (min p.length 128)) b (acc ++ p.take (min p.length 128))
        (by simp only [List.length_drop]; omega)
        (by simp only [List.length_append, List.length_drop, htake]; omega)]
      rw [List.append_assoc, List.take_append_drop]

theorem enc_fill_decode (dl m : Nat) : ∀ (l v : Nat) (b acc : List Nat), l ≤ m →
    2 ≤ l → acc.length + l ≤ dl →
    rle_decode_loop dl (enc_fill v l ++ b) acc =
      rle_decode_loop dl b (acc ++ List.replicate l v) := by
  induction m with
  | zero => intro l v b acc hl h2 _; omega
  | succ m ih =>
    intro l v b acc hl h2 hd
    rw [enc_fill, if_neg (by omega)]
    set N := if 129 < l then (if l = 130 then 128 else 129) else l with hNdef
    have hN : 2 ≤ N ∧ N ≤ 129 ∧ N ≤ l ∧ (l - N = 0 ∨ 2 ≤ l - N) := by
      rw [hNdef]; split_ifs <;> omega
    rw [List.cons_append, List.cons_append, rle_decode_loop]
    rw [if_neg (by omega), if_neg (by omega)]
    rw [if_neg (by simp)]
    have h257 : 257 - (257 - N) = N := by omega
    rw [h257, if_neg (by omega)]
    rw [List.tail_cons, List.headI_cons]
    rcases hN.2.2.2 with h0 | hrec
    · have hNl : N = l := by omega
      rw [show l - N = 0 from h0, enc_fill, if_pos (by omega), List.nil_append, hNl]
    · rw [ih (l - N) v b (acc ++ List.replicate N v) (by omega) hrec
        (by simp only [List.length_append, List.length_replicate]; omega)]
      rw [List.append_assoc, ← List.replicate_add,
        show N + (l - N) = l by omega]

theorem pcx_encode_decode (dl m : Nat) : ∀ (rest pending acc : List Nat),
    rest.length ≤ m → acc.length + pending.length + rest.length ≤ dl →
    rle_decode_loop dl (pcx_encode_loop pending rest) acc =
      some ((acc ++ pending) ++ rest) := by
  induction m with
  | zero =>
    intro rest pending acc hr hd
    have : rest = [] := List.length_eq_zero.mp (by omega)
    subst this
    rw [pcx_encode_loop]
    rw [← List.append_nil (enc_copy pending),
      enc_copy_decode dl pending.length pending [] acc (le_refl _) (by omega)]
    rw [rle_decode_loop]
    simp
  | succ m ih =>
    intro rest pending acc hr hd
    match rest with
    | [] =>
      rw [pcx_encode_loop]
      rw [← List.append_nil (enc_copy pending),
        enc_copy_decode dl pending.length pending [] acc (le_refl _) (by omega)]
      rw [rle_decode_loop]
      simp
    | c :: tl =>
      rw [pcx_encode_loop]
      have hrun := countRun_le c tl
      simp only [List.length_cons] at hr hd
      by_cases hl : 2 ≤ countRun c tl + 1
      · rw [if_pos hl]
        rw [List.append_assoc]
        rw [enc_copy_decode dl pending.length pending _ acc (le_refl _) (by omega)]
        rw [enc_fill_decode dl (countRun c tl + 1) (countRun c tl + 1) c _ _ (le_refl _)
          hl (by simp only [List.length_append]; omega)]
        rw [ih (tl.drop (countRun c tl)) [] _
          (by simp only [List.length_drop]; omega)
          (by simp only [List.length_append, List.length_replicate, List.length_drop,
            List.length_nil]; omega)]
        rw [List.append_nil, List.append_assoc, List.append_assoc]
        have : List.replicate (countRun c tl + 1) c ++ tl.drop (countRun c tl) = c :: tl := by
          rw [show countRun c tl + 1 = 1 + countRun c tl by omega, List.replicate_add,
            ← countRun_take c tl]
          simp
        rw [this, ← List.append_assoc]
      · rw [if_neg hl]
        rw [ih tl (pending ++ [c]) acc (by omega)
          (by simp only [List.length_append, List.length_cons, List.length_nil]; omega)]
        simp

/-- C1: RLE round trip.  For every byte sequence `s` of length 1..80,
decoding the output of the row encoder with the 80-byte row budget of the
save path (`rle_decode(xxx, 80, rle, l)` in `save_as_pcx`) reproduces `s`
exactly. -/
theorem C1_rle_round_trip (s : List Nat) (h1 : 1 ≤ s.length) (h80 : s.length ≤ 80) :
    rle_decode 80 (pcx_encode_row s) = some s := by
  rw [rle_decode, pcx_encode_row]
  rw [pcx_encode_decode 80 s.length s [] [] (le_refl _) (by simpa using h80)]
  simp

/-- Witness for C1 at the concrete row `[1, 2, 2, 3]`. -/
theorem C1_rle_round_trip_witness :
    rle_decode 80 (pcx_encode_row [1, 2, 2, 3]) = some [1, 2, 2, 3] :=
  C1_rle_round_trip [1, 2, 2, 3] (by decide) (by decide)

theorem opsRender_append (a b : List RleOp) :
    opsRender (a ++ b) = opsRender a ++ opsRender b := by
  induction a with
  | nil => simp [opsRender]
  | cons op ops ih => simp [opsRender, ih]

theorem opsRender_enc_copy (m : Nat) : ∀ p : List Nat, p.length ≤ m →
    opsRender (enc_copy_ops p) = enc_copy p := by
  induction m with
  | zero =>
    intro p hp
    have : p = [] := List.length_eq_zero.mp (by omega)
    subst this
    rw [enc_copy_ops, enc_copy]
    simp [opsRender]
  | succ m ih =>
    intro p hp
    by_cases hnil : p = []
    · subst hnil; rw [enc_copy_ops, enc_copy]; simp [opsRender]
    · have hpos : 0 < p.length := List.length_pos.mpr hnil
      rw [enc_copy_ops, dif_neg hnil, enc_copy, dif_neg hnil]
      rw [opsRender]
      rw [ih (p.drop (min p.length 128)) (by simp only [List.length_drop]; omega)]
      simp only [opRender, List.length_take]
      rw [List.cons_append]
      congr 1
      omega

theorem enc_copy_ops_legal (m : Nat) : ∀ p : List Nat, p.length ≤ m →
    (enc_copy_ops p).all opLegal = true := by
  induction m with
  | zero =>
    intro p hp
    have : p = [] := List.length_eq_zero.mp (by omega)
    subst this
    rw [enc_copy_ops]
    simp
  | succ m ih =>
    intro p hp
    by_cases hnil : p = []
    · subst hnil; rw [enc_copy_ops]; simp
    · have hpos : 0 < p.length := List.length_pos.mpr hnil
      rw [enc_copy_ops, dif_neg hnil]
      rw [List.all_cons]
      rw [ih (p.drop (min p.length 128)) (by simp only [List.length_drop]; omega)]
      simp only [opLegal, List.length_take, Bool.and_true]
      simp only [Bool.and_eq_true, decide_eq_true_eq]
      omega

theorem opsRender_enc_fill (m : Nat) : ∀ (l v : Nat), l ≤ m →
    opsRender (enc_fill_ops v l) = enc_fill v l := by
  induction m with
  | zero =>
    intro l v hl
    have : l = 0 := by omega
    subst this
    rw [enc_fill_ops, enc_fill]
    simp [opsRender]
  | succ m ih =>
    intro l v hl
    by_cases h2 : l < 2
    · rw [enc_fill_ops, if_pos h2, enc_fill, if_pos h2]; simp [opsRender]
    · rw [enc_fill_ops, if_neg h2, enc_fill, if_neg h2]
      rw [opsRender]
      have hsub : l - (if 129 < l then (if l = 130 then 128 else 129) else l) ≤ m := by
        split_ifs <;> omega
      rw [ih _ v hsub]
      simp [opRender]

theorem enc_fill_ops_legal (m : Nat) : ∀ (l v : Nat), l ≤ m →
    (enc_fill_ops v l).all opLegal = true := by
  induction m with
  | zero =>
    intro l v hl
    have : l = 0 := by omega
    subst this
    rw [enc_fill_ops]
    simp
  | succ m ih =>
    intro l v hl
    by_cases h2 : l < 2
    · rw [enc_fill_ops, if_pos h2]; simp
    · rw [enc_fill_ops, if_neg h2]
      rw [List.all_cons]
      have hsub : l - (if 129 < l then (if l = 130 then 128 else 129) else l) ≤ m := by
        split_ifs <;> omega
      rw [ih _ v hsub]
      simp only [opLegal, Bool.and_true]
      simp only [Bool.and_eq_true, decide_eq_true_eq]
      split_ifs <;> omega

theorem opsRender_encode (m : Nat) : ∀ (rest pending : List Nat), rest.length ≤ m →
    opsRender (pcx_encode_ops pending rest) = pcx_encode_loop pending rest := by
  induction m with
  | zero =>
    intro rest pending hr
    have : rest = [] := List.length_eq_zero.mp (by omega)
    subst this
    rw [pcx_encode_ops, pcx_encode_loop]
    exact opsRender_enc_copy pending.length pending (le_refl _)
  | succ m ih =>
    intro rest pending hr
    match rest with
    | [] =>
      rw [pcx_encode_ops, pcx_encode_loop]
      exact opsRender_enc_copy pending.length pending (le_refl _)
    | c :: tl =>
      rw [pcx_encode_ops, pcx_encode_loop]
      simp only [List.length_cons] at hr
      by_cases hl : 2 ≤ countRun c tl + 1
      · rw [if_pos hl, if_pos hl]
        rw [opsRender_append, opsRender_append]
        rw [opsRender_enc_copy pending.length pending (le_refl _),
          opsRender_enc_fill (countRun c tl + 1) (countRun c tl + 1) c (le_refl _),
          ih (tl.drop (countRun c tl)) [] (by simp only [List.length_drop]; omega)]
      · rw [if_neg hl, if_neg hl]
        exact ih tl (pending ++ [c]) (by omega)

theorem pcx_encode_ops_legal (m : Nat) : ∀ (rest pending : List Nat), rest.length ≤ m →
    (pcx_encode_ops pending rest).all opLegal = true := by
  induction m with
  | zero =>
    intro rest pending hr
    have : rest = [] := List.length_eq_zero.mp (by omega)
    subst this
    rw [pcx_encode_ops]
    exact enc_copy_ops_legal pending.length pending (le_refl _)
  | succ m ih =>
    intro rest pending hr
    match rest with
    | [] =>
      rw [pcx_encode_ops]
      exact enc_copy_ops_legal pending.length pending (le_refl _)
    | c :: tl =>
      rw [pcx_encode_ops]
      simp only [List.length_cons] at hr
      by_cases hl : 2 ≤ countRun c tl + 1
      · rw [if_pos hl]
        simp only [List.all_append, Bool.and_eq_true]
        refine ⟨⟨?_, ?_⟩, ?_⟩
        · exact enc_copy_ops_legal pending.length pending (le_refl _)
        · exact enc_fill_ops_legal (countRun c tl + 1) (countRun c tl + 1) c (le_refl _)
        · exact ih (tl.drop (countRun c tl)) [] (by simp only [List.length_drop]; omega)
      · rw [if_neg hl]
        exact ih tl (pending ++ [c]) (by omega)

/-- C5: RLE opcode legality.  Every copy opcode emitted by the row encoder
covers 1..128 literal bytes and every fill opcode covers a run of 2..129
bytes (first conjunct, over the opcode view whose byte rendering is
exactly `pcx_encode_row`, second conjunct), and when exactly 130 bytes of
a run remain the encoder splits them as 128+2, never 129+1 (third
conjunct). -/
theorem C5_rle_opcode_legality (s : List Nat) (v : Nat) :
    (pcx_encode_ops [] s).all opLegal = true
    ∧ opsRender (pcx_encode_ops [] s) = pcx_encode_row s
    ∧ enc_fill_ops v 130 = [RleOp.fill v 128, RleOp.fill v 2] := by
  refine ⟨?_, ?_, ?_⟩
  · exact pcx_encode_ops_legal s.length s [] (le_refl _)
  · rw [pcx_encode_row]
    exact opsRender_encode s.length s [] (le_refl _)
  · rw [enc_fill_ops]
    norm_num
    rw [enc_fill_ops]
    norm_num
    rw [enc_fill_ops]
    norm_num

theorem rle_read_loop_length (bpp m : Nat) : ∀ (s acc out : List Nat), s.length ≤ m →
    acc.length ≤ bpp → rle_read_loop bpp s acc = some out → out.length = bpp := by
  induction m with
  | zero =>
    intro s acc out hs hacc h
    have hsnil : s = [] := List.length_eq_zero.mp (by omega)
    subst hsnil
    rw [rle_read_loop] at h
    by_cases hb : bpp ≤ acc.length
    · rw [if_pos hb] at h
      cases h
      omega
    · rw [if_neg hb] at h
      cases h
  | succ m ih =>
    intro s acc out hs hacc h
    match s, hs with
    | [], _ =>
      rw [rle_read_loop] at h
      by_cases hb : bpp ≤ acc.length
      · rw [if_pos hb] at h; cases h; omega
      · rw [if_neg hb] at h; cases h
    | [c], _ =>
      rw [rle_read_loop] at h
      by_cases hb : bpp ≤ acc.length
      · rw [if_pos hb] at h; cases h; omega
      · rw [if_neg hb] at h; cases h
    | c :: v :: rest, hs =>
      simp only [List.length_cons] at hs
      rw [rle_read_loop] at h
      by_cases hb : bpp ≤ acc.length
      · rw [if_pos hb] at h; cases h; omega
      · rw [if_neg hb] at h
        by_cases hc : 128 ≤ c
        · rw [if_pos hc] at h
          by_cases hov : bpp < acc.length + (257 - c)
          · rw [if_pos hov] at h; cases h
          · rw [if_neg hov] at h
            exact ih rest _ out (by omega)
              (by simp only [List.length_append, List.length_replicate]; omega) h
        · rw [if_neg hc] at h
          by_cases hov : bpp < acc.length + (c + 1)
          · rw [if_pos hov] at h; cases h
          · rw [if_neg hov] at h
            by_cases hsh : rest.length < c
            · rw [if_pos hsh] at h; cases h
            · rw [if_neg hsh] at h
              exact ih (rest.drop c) _ out (by simp only [List.length_drop]; omega)
                (by simp only [List.length_append, List.length_cons, List.length_take]
                    omega) h

/-- C8: RLE decoder overflow error.  A fill or copy opcode that would
write past the row-plane budget `bytes_per_plan` (at most 80) makes the
decode loop fail with the "rle-fill overflow" / "rle-copy overflow" error
(`none`, second and third conjuncts); consequently the decoder never
builds more than `bpp` bytes, and decoding a row-plane succeeds only by
producing exactly the budgeted number of bytes (first conjunct). -/
theorem C8_rle_read_overflow (bpp : Nat) (hb : bpp ≤ 80) (s out : List Nat)
    (h : rle_read_plane bpp s = some out) :
    out.length = bpp ∧
    (∀ c v rest acc, acc.length < bpp → 128 ≤ c →
      bpp < acc.length + (257 - c) →
      rle_read_loop bpp (c :: v :: rest) acc = none) ∧
    (∀ c v rest acc, acc.length < bpp → c < 128 →
      bpp < acc.length + (c + 1) →
      rle_read_loop bpp (c :: v :: rest) acc = none) := by
  rw [rle_read_plane] at h
  refine ⟨rle_read_loop_length bpp s.length s [] out (le_refl _) (by simp) h, ?_, ?_⟩
  · intro c v rest acc hacc hc hov
    rw [rle_read_loop, if_neg (by omega), if_pos hc, if_pos hov]
  · intro c v rest acc hacc hc hov
    rw [rle_read_loop, if_neg (by omega), if_neg (by omega), if_pos hov]

/-- Witness for C8: a 4-byte budget filled exactly by one fill opcode,
and a fill opcode of 127 bytes that overflows the 4-byte budget. -/
theorem C8_rle_read_overflow_witness :
    rle_read_plane 4 [253, 9] = some [9, 9, 9, 9] ∧
    ([9, 9, 9, 9] : List Nat).length = 4 ∧
    rle_read_loop 4 [130, 9] [] = none := by
  have hdec : rle_read_plane 4 [253, 9] = some [9, 9, 9, 9] := by
    rw [rle_read_plane, rle_read_loop]
    norm_num
    rw [rle_read_loop]
    norm_num
    decide
  obtain ⟨h1, h2, _⟩ := C8_rle_read_overflow 4 (by norm_num) [253, 9] [9, 9, 9, 9] hdec
  exact ⟨hdec, h1, h2 130 9 [] [] (by norm_num) (by norm_num) (by norm_num)⟩

theorem getD_replicate_zero (k j : Nat) : (List.replicate k (0 : Nat)).getD j 0 = 0 := by
  by_cases h : j < k
  · rw [List.getD_eq_getElem _ _ (by simpa using h)]
    simp
  · rw [List.getD_eq_default]
    simp only [List.length_replicate]
    omega

theorem mem_insertLumi (a x : Nat) (l : List Nat) :
    x ∈ insertLumi a l ↔ x = a ∨ x ∈ l := by
  induction l with
  | nil => simp [insertLumi]
  | cons b t ih =>
    rw [insertLumi]
    split
    · simp
    · simp only [List.mem_cons, ih]
      tauto

theorem length_insertLumi (a : Nat) (l : List Nat) :
    (insertLumi a l).length = l.length + 1 := by
  induction l with
  | nil => simp [insertLumi]
  | cons b t ih =>
    rw [insertLumi]
    split
    · simp
    · simp [ih]

theorem sorted_insertLumi (a : Nat) (l : List Nat)
    (h : List.Pairwise (fun u v => lumi u ≤ lumi v) l) :
    List.Pairwise (fun u v => lumi u ≤ lumi v) (insertLumi a l) := by
  induction l with
  | nil => simp [insertLumi]
  | cons b t ih =>
    rw [insertLumi]
    rcases List.pairwise_cons.mp h with ⟨hb, ht⟩
    split
    · next hab =>
      refine List.pairwise_cons.mpr ⟨?_, h⟩
      intro x hx
      rcases List.mem_cons.mp hx with rfl | hxt
      · exact hab
      · exact le_trans hab (hb x hxt)
    · next hab =>
      refine List.pairwise_cons.mpr ⟨?_, ih ht⟩
      intro x hx
      rcases (mem_insertLumi a x t).mp hx with rfl | hxt
      · omega
      · exact hb x hxt

theorem mem_sort_colorbright (x : Nat) (l : List Nat) :
    x ∈ sort_colorbright l ↔ x ∈ l := by
  induction l with
  | nil => simp [sort_colorbright]
  | cons b t ih =>
    rw [sort_colorbright, List.foldr_cons, mem_insertLumi]
    rw [sort_colorbright] at ih
    simp [ih]

theorem length_sort_colorbright (l : List Nat) :
    (sort_colorbright l).length = l.length := by
  induction l with
  | nil => simp [sort_colorbright]
  | cons b t ih =>
    rw [sort_colorbright, List.foldr_cons, length_insertLumi]
    rw [sort_colorbright] at ih
    simp [ih]

theorem sort_colorbright_sorted (l : List Nat) :
    List.Pairwise (fun u v => lumi u ≤ lumi v) (sort_colorbright l) := by
  induction l with
  | nil => simp [sort_colorbright]
  | cons b t ih =>
    rw [sort_colorbright, List.foldr_cons]
    rw [sort_colorbright] at ih
    exact sorted_insertLumi b _ ih

theorem palette_length (pixels : List Nat) :
    (palette pixels).length = ncolors pixels := by
  rw [palette, ncolors, length_sort_colorbright]

/-- C6: luminance ordering.  The palette entries assigned to bitplane
indices `0..n-1` are pairwise non-decreasing in the luminance key `lumi`
(weight 2 for red, 4 for green, 1 for blue, each 4-bit component mapped
through the `ste_to_std` bit-reordering table); `lumi` does not depend on
the active color mode. -/
theorem C6_luminance_ordering (pixels : List Nat) :
    List.Pairwise (fun u v => lumi u ≤ lumi v) (palette pixels) :=
  sort_colorbright_sorted (usedColors pixels)

theorem getD_map_range (f : Nat → Nat) (n y : Nat) (hy : y < n) :
    ((List.range n).map f).getD y 0 = f y := by
  have hy2 : y < ((List.range n).map f).length := by simpa using hy
  rw [List.getD_eq_getElem _ _ hy2]
  simp

theorem sampledPixels_const (w h c : Nat) :
    sampledPixels w h (fun _ _ => c) = List.replicate (h * w) c := by
  rw [sampledPixels]
  have key : ∀ L : List Nat, (L.flatMap fun _ => (List.range w).map fun _ => c)
      = List.replicate (L.length * w) c := by
    intro L
    induction L with
    | nil => simp
    | cons a t ih =>
      rw [List.flatMap_cons, ih, List.map_const', List.length_range, List.length_cons,
        show (t.length + 1) * w = w + t.length * w by ring, List.replicate_add]
  rw [key, List.length_range]

theorem filter_beq_range (N c : Nat) (hc : c < N) :
    (List.range N).filter (fun a => a == c) = [c] := by
  induction N with
  | zero => omega
  | succ N ih =>
    rw [List.range_succ, List.filter_append]
    by_cases h : c < N
    · rw [ih h]
      have hbeq : (N == c) = false := by
        simp only [beq_eq_false_iff_ne, ne_eq]
        omega
      have hN : List.filter (fun a => a == c) [N] = [] := by
        simp [List.filter, hbeq]
      rw [hN, List.append_nil]
    · have hcN : c = N := by omega
      subst hcN
      have h1 : (List.range c).filter (fun a => a == c) = [] := by
        rw [List.filter_eq_nil_iff]
        intro a ha
        have := List.mem_range.mp ha
        simp only [beq_iff_eq]
        omega
      have h2 : List.filter (fun a => a == c) [c] = [c] := by
        simp
      rw [h1, h2, List.nil_append]

theorem usedColors_replicate (n c : Nat) (hn : 0 < n) (hc : c < 4096) :
    usedColors (List.replicate n c) = [c] := by
  rw [usedColors]
  rw [List.filter_congr (q := fun a => a == c) ?eq]
  · exact filter_beq_range 4096 c hc
  case eq =>
    intro a _
    rw [List.count_replicate]
    by_cases h : a = c
    · subst h
      simp
      omega
    · simp [h, Ne.symm h]

theorem ncolors_replicate (n c : Nat) (hn : 0 < n) (hc : c < 4096) :
    ncolors (List.replicate n c) = 1 := by
  rw [ncolors, usedColors_replicate n c hn hc]
  rfl

theorem palette_replicate (n c : Nat) (hn : 0 < n) (hc : c < 4096) :
    palette (List.replicate n c) = [c] := by
  rw [palette, usedColors_replicate n c hn hc]
  rfl

/-- C10: monochrome color budget.  For the 640x400 formats (PI3/PC3,
table index 4, `log2plans = 0`) the converter computes its color limit as
`1<<(1<<0) = 2`, and the conversion succeeds exactly when the image uses
at most 2 distinct RGB444 colors; the "too many colors" error fires only
above 2, not above 0. -/
theorem C10_monochrome_color_budget (get : Nat → Nat → Nat) :
    findFormat 640 400 = some 4 ∧ (degasGet 4).d = 0 ∧ lutmax 0 = 2 ∧
    ((mypixFromPng 640 400 get).isSome = true ↔
      ncolors (sampledPixels 640 400 get) ≤ 2) := by
  refine ⟨by decide, by decide, by decide, ?_⟩
  rw [mypixFromPng, show findFormat 640 400 = some 4 from by decide]
  dsimp only
  split_ifs with hn
  · rw [show lutmax (degasGet 4).d = 2 from by decide] at hn
    simp only [Option.isSome_none]
    constructor
    · intro hfalse; cases hfalse
    · omega
  · rw [show lutmax (degasGet 4).d = 2 from by decide] at hn
    simp only [Option.isSome_some]
    constructor
    · intro _; omega
    · intro _; trivial

/-- C3 (amended): palette capacity enforcement.  The capacity the code
enforces is `lutmax = 1<<(1<<log2plans)` (16 for PI1/PC1, 4 for PI2/PC2,
2 — not 0 — for PI3/PC3): a source image whose distinct sampled color
count `n` is at most `lutmax` converts successfully with exactly `n`
palette entries, and one with more than `lutmax` distinct colors fails
with the "too many colors" error; no nearest-color merging exists in the
code.  The claim's stated capacity 0 for PI3/PC3 is refuted by
`C3_palette_capacity_counterexample`. -/
theorem C3_palette_capacity (w h : Nat) (get : Nat → Nat → Nat) (i : Nat)
    (hfmt : findFormat w h = some i) :
    (ncolors (sampledPixels w h get) ≤ lutmax (degasGet i).d →
      (mypixFromPng w h get).isSome = true ∧
      (palette (sampledPixels w h get)).length = ncolors (sampledPixels w h get)) ∧
    (lutmax (degasGet i).d < ncolors (sampledPixels w h get) →
      mypixFromPng w h get = none) := by
  constructor
  · intro hn
    refine ⟨?_, palette_length _⟩
    rw [mypixFromPng, hfmt]
    dsimp only
    rw [if_neg (by omega)]
    rfl
  · intro hn
    rw [mypixFromPng, hfmt]
    dsimp only
    rw [if_pos hn]

/-- Witness for the amended C3 at a one-color 320x200 image. -/
theorem C3_palette_capacity_witness :
    (mypixFromPng 320 200 (fun _ _ => 5)).isSome = true ∧
    (palette (sampledPixels 320 200 (fun _ _ => 5))).length =
      ncolors (sampledPixels 320 200 (fun _ _ => 5)) := by
  refine (C3_palette_capacity 320 200 (fun _ _ => 5) 0 (by decide)).1 ?_
  rw [sampledPixels_const, ncolors_replicate _ _ (by norm_num) (by norm_num)]
  decide

/-- Counterexample to C3 as stated: the 640x400 formats have palette
capacity `degas[4].c = 0` in the claim's sense, yet a 640x400 image with
`0 + 1` distinct colors converts successfully instead of failing. -/
theorem C3_palette_capacity_counterexample :
    findFormat 640 400 = some 4 ∧ (degasGet 4).c = 0 ∧
    ncolors (sampledPixels 640 400 (fun _ _ => 0)) = 0 + 1 ∧
    (mypixFromPng 640 400 (fun _ _ => 0)).isSome = true := by
  refine ⟨by decide, by decide, ?_, ?_⟩
  · rw [sampledPixels_const, ncolors_replicate _ _ (by norm_num) (by norm_num)]
  · rw [mypixFromPng, show findFormat 640 400 = some 4 from by decide]
    dsimp only
    rw [if_neg ?bound]
    · rfl
    case bound =>
      rw [sampledPixels_const, ncolors_replicate _ _ (by norm_num) (by norm_num)]
      decide

/-- C4 (amended): palette padding.  In the 16 palette words written to
the header, slots holding accepted colors come first; unused slots below
the format's palette size `lutsiz = degas[id].c` are written `0x0F0`
(not zero); slots at `lutsiz` and above are zero, except that when
`lutsiz = 0` (PI3/PC3) slot 0 is the maximum RGB444 value `0xFFF`.
The claim's zero padding and its `n = 0` trigger for the white slot are
refuted by `C4_palette_padding_counterexample`. -/
theorem C4_palette_padding (c : Nat) (pal : List Nat) (hc : c ≤ 16) :
    (paletteWords c pal).length = 16 ∧
    (∀ y, y < pal.length → y < c → (paletteWords c pal).getD y 0 = pal.getD y 0) ∧
    (∀ y, pal.length ≤ y → y < c → (paletteWords c pal).getD y 0 = 0x0F0) ∧
    (∀ y, c ≤ y → y < 16 → (paletteWords c pal).getD y 0 =
      (if c = 0 ∧ y = 0 then 0xFFF else 0)) := by
  by_cases hc0 : c = 0
  · subst hc0
    have hpw : paletteWords 0 pal = 0xFFF :: List.replicate 15 0 := rfl
    refine ⟨by rw [hpw]; rfl, ?_, ?_, ?_⟩
    · intro y _ hy; exact absurd hy (by omega)
    · intro y _ hy; exact absurd hy (by omega)
    · intro y _ hy
      rw [hpw]
      match y, hy with
      | 0, _ => rfl
      | (z + 1), _ =>
        rw [List.getD_cons_succ]
        rw [if_neg (by omega)]
        exact getD_replicate_zero _ _
  · have hmain : ((List.range c).map (lutFill pal)).length = c := by simp
    refine ⟨?_, ?_, ?_, ?_⟩
    · rw [paletteWords, if_neg hc0, List.length_append, hmain]
      simp only [List.length_replicate, if_neg hc0]
      omega
    · intro y hyp hyc
      rw [paletteWords, if_neg hc0, List.getD_append _ _ _ _ (by omega)]
      rw [getD_map_range _ _ _ hyc, lutFill, if_pos hyp]
    · intro y hyp hyc
      rw [paletteWords, if_neg hc0, List.getD_append _ _ _ _ (by omega)]
      rw [getD_map_range _ _ _ hyc, lutFill, if_neg (by omega)]
    · intro y hyc hy16
      rw [paletteWords, if_neg hc0,
        List.getD_append_right _ _ _ _ (by rw [hmain]; exact hyc)]
      rw [if_neg hc0, hmain]
      rw [if_neg (show ¬(c = 0 ∧ y = 0) from fun hcy => hc0 hcy.1)]
      exact getD_replicate_zero _ _

/-- Witness for the amended C4 with capacity 16 and one accepted color. -/
theorem C4_palette_padding_witness :
    (paletteWords 16 [0x123]).length = 16 ∧
    (paletteWords 16 [0x123]).getD 0 0 = 0x123 ∧
    (paletteWords 16 [0x123]).getD 5 0 = 0x0F0 ∧
    (paletteWords 0 []).getD 0 0 = 0xFFF := by
  obtain ⟨h1, h2, h3, _⟩ := C4_palette_padding 16 [0x123] (by norm_num)
  obtain ⟨_, _, _, h4⟩ := C4_palette_padding 0 [] (by norm_num)
  refine ⟨h1, ?_, h3 5 (by norm_num) (by norm_num), ?_⟩
  · have := h2 0 (by norm_num) (by norm_num)
    simpa using this
  · have := h4 0 (by norm_num) (by norm_num)
    simpa using this

/-- Counterexample to C4 as stated: a 320x200 one-color image (format
PI1, capacity `degas[0].c = 16`) has its unused palette slot 1 written as
`0x0F0`, not zero; and with zero accepted colors slot 0 would be `0x0F0`
as well, not white. -/
theorem C4_palette_padding_counterexample :
    ncolors (sampledPixels 320 200 (fun _ _ => 0x123)) = 1 ∧
    (degasGet 0).c = 16 ∧
    (paletteWords (degasGet 0).c
      (palette (sampledPixels 320 200 (fun _ _ => 0x123)))).getD 1 0 = 0x0F0 ∧
    (0x0F0 : Nat) ≠ 0 ∧
    (paletteWords 16 []).getD 0 0 = 0x0F0 := by
  refine ⟨?_, by decide, ?_, by decide, by decide⟩
  · rw [sampledPixels_const, ncolors_replicate _ _ (by norm_num) (by norm_num)]
  · rw [sampledPixels_const, palette_replicate _ _ (by norm_num) (by norm_num)]
    decide

theorem getD_indexOf (l : List Nat) (a : Nat) (h : a ∈ l) :
    l.getD (l.indexOf a) 0 = a := by
  have hlt : l.indexOf a < l.length := List.indexOf_lt_length.mpr h
  rw [List.getD_eq_getElem _ _ hlt]
  exact List.getElem_indexOf hlt

/-- C9: reverse-lookup soundness.  In a successful conversion, for every
pixel the index obtained from the reverse color map (`colcnt[rgb].rgb`,
modelled as `indexOf` into the duplicate-free palette) is strictly below
the accepted color count — so the in-loop `assert(idx < ncolors)` of
pngtopi1.c:1224 cannot fail — and the palette entry at that index is
exactly the pixel's sampled RGB444 value. -/
theorem C9_reverse_lookup (w h : Nat) (get : Nat → Nat → Nat)
    (hget : ∀ u v, get u v < 4096)
    (hs : (mypixFromPng w h get).isSome = true)
    (x y : Nat) (hx : x < w) (hy : y < h) :
    (palette (sampledPixels w h get)).indexOf (get x y) <
      ncolors (sampledPixels w h get) ∧
    (palette (sampledPixels w h get)).getD
      ((palette (sampledPixels w h get)).indexOf (get x y)) 0 = get x y := by
  have hmem : get x y ∈ sampledPixels w h get := by
    rw [sampledPixels]
    refine List.mem_flatMap.mpr ⟨y, List.mem_range.mpr hy, ?_⟩
    exact List.mem_map.mpr ⟨x, List.mem_range.mpr hx, rfl⟩
  have hused : get x y ∈ usedColors (sampledPixels w h get) := by
    rw [usedColors]
    refine List.mem_filter.mpr ⟨List.mem_range.mpr (hget x y), ?_⟩
    have hcnt : 0 < (sampledPixels w h get).count (get x y) :=
      List.count_pos_iff.mpr hmem
    simp only [ne_eq, bne_iff_ne]
    omega
  have hpal : get x y ∈ palette (sampledPixels w h get) :=
    (mem_sort_colorbright _ _).mpr hused
  refine ⟨?_, getD_indexOf _ _ hpal⟩
  rw [← palette_length]
  exact List.indexOf_lt_length.mpr hpal

/-- Witness for C9: the constant 640x400 image with color 7, pixel (0,0). -/
theorem C9_reverse_lookup_witness :
    (palette (sampledPixels 640 400 (fun _ _ => 7))).indexOf 7 <
      ncolors (sampledPixels 640 400 (fun _ _ => 7)) ∧
    (palette (sampledPixels 640 400 (fun _ _ => 7))).getD
      ((palette (sampledPixels 640 400 (fun _ _ => 7))).indexOf 7) 0 = 7 := by
  have hsucc : (mypixFromPng 640 400 (fun _ _ => 7)).isSome = true := by
    rw [mypixFromPng, show findFormat 640 400 = some 4 from by decide]
    dsimp only
    rw [if_neg (by
      rw [sampledPixels_const, ncolors_replicate _ _ (by norm_num) (by norm_num)]
      decide)]
    rfl
  exact C9_reverse_lookup 640 400 (fun _ _ => 7) (fun _ _ => by norm_num) hsucc
    0 0 (by norm_num) (by norm_num)

theorem getD_range (n q : Nat) (hq : q < n) : (List.range n).getD q 0 = q := by
  rw [List.getD_eq_getElem _ _ (by simpa using hq)]
  simp

theorem flatMap_length_const (f : Nat → List Nat) (m : Nat) :
    ∀ L : List Nat, (∀ b ∈ L, (f b).length = m) →
    (L.flatMap f).length = L.length * m := by
  intro L
  induction L with
  | nil => simp
  | cons b T ih =>
    intro hm
    rw [List.flatMap_cons, List.length_append, hm b (List.mem_cons_self b T),
      ih (fun x hx => hm x (List.mem_cons_of_mem b hx)), List.length_cons]
    ring

theorem flatMap_getD_aux (f : Nat → List Nat) (m : Nat) :
    ∀ (L : List Nat) (q r : Nat), (∀ b ∈ L, (f b).length = m) → q < L.length →
    r < m → (L.flatMap f).getD (q * m + r) 0 = (f (L.getD q 0)).getD r 0 := by
  intro L
  induction L with
  | nil =>
    intro q r _ hq _
    simp at hq
  | cons b T ih =>
    intro q r hm hq hr
    rw [List.flatMap_cons]
    have hfb : (f b).length = m := hm b (List.mem_cons_self b T)
    match q with
    | 0 =>
      rw [Nat.zero_mul, Nat.zero_add]
      rw [List.getD_append _ _ _ _ (by rw [hfb]; exact hr)]
      rfl
    | (q' + 1) =>
      have hexp : (q' + 1) * m = q' * m + m := by ring
      rw [List.getD_append_right _ _ _ _ (by rw [hfb]; omega)]
      have hidx : (q' + 1) * m + r - (f b).length = q' * m + r := by
        rw [hfb]; omega
      rw [hidx]
      rw [ih q' r (fun x hx => hm x (List.mem_cons_of_mem b hx))
        (by simp only [List.length_cons] at hq; omega) hr]
      rw [List.getD_cons_succ]

theorem bitsToNat_lt (bs : List Bool) : bitsToNat bs < 2 ^ bs.length := by
  induction bs with
  | nil => simp [bitsToNat]
  | cons b t ih =>
    rw [bitsToNat, List.length_cons, pow_succ]
    split <;> omega

theorem div_pow_mod_two_add (a q v e : Nat) (h : e < a) :
    (2 ^ a * q + v) / 2 ^ e % 2 = v / 2 ^ e % 2 := by
  have hsplit : 2 ^ a * q + v = v + 2 ^ (a - e - 1) * q * 2 * 2 ^ e := by
    conv_lhs => rw [show a = a - e - 1 + 1 + e by omega]
    rw [pow_add, pow_add, pow_one]
    ring
  rw [hsplit, Nat.add_mul_div_right _ _ (pow_pos (by norm_num : (0:Nat) < 2) e)]
  rw [show v / 2 ^ e + 2 ^ (a - e - 1) * q * 2 =
    v / 2 ^ e + 2 ^ (a - e - 1) * q * 2 from rfl]
  rw [Nat.add_mul_mod_self_right]

theorem bitsToNat_getBit (bs : List Bool) : ∀ j, j < bs.length →
    bitsToNat bs / 2 ^ (bs.length - 1 - j) % 2 = (bs.getD j false).toNat := by
  induction bs with
  | nil =>
    intro j hj
    simp at hj
  | cons b t ih =>
    intro j hj
    rw [bitsToNat, List.length_cons]
    have hv := bitsToNat_lt t
    match j with
    | 0 =>
      rw [show t.length + 1 - 1 - 0 = t.length by omega, List.getD_cons_zero]
      cases b
      · rw [if_neg (by simp), Nat.zero_add, Nat.div_eq_of_lt hv]
        rfl
      · rw [if_pos rfl, Nat.add_comm,
          Nat.add_div_right _ (pow_pos (by norm_num : (0:Nat) < 2) _),
          Nat.div_eq_of_lt hv]
        rfl
    | (j' + 1) =>
      have hj' : j' < t.length := by
        simp only [List.length_cons] at hj
        omega
      rw [show t.length + 1 - 1 - (j' + 1) = t.length - 1 - j' by omega,
        List.getD_cons_succ]
      cases b
      · rw [if_neg (by simp), Nat.zero_add]
        exact ih j' hj'
      · rw [if_pos rfl, show (2:Nat) ^ t.length + bitsToNat t =
          2 ^ t.length * 1 + bitsToNat t by ring]
        rw [div_pow_mod_two_add t.length 1 (bitsToNat t) _ (by omega)]
        exact ih j' hj'

theorem toNat_decide_eq (M : Nat) (hM : M < 2) : (decide (M = 1)).toNat = M := by
  match M, hM with
  | 0, _ => rfl
  | 1, _ => rfl

theorem tileBits_length (idx : Nat → Nat → Nat) (y x0 z : Nat) :
    (tileBits idx y x0 z).length = 16 := by
  simp [tileBits]

theorem tileBits_getD (idx : Nat → Nat → Nat) (y x0 z k : Nat) (hk : k < 16) :
    (tileBits idx y x0 z).getD k false = decide (idx (x0 + k) y / 2 ^ z % 2 = 1) := by
  rw [tileBits]
  rw [List.getD_eq_getElem _ _ (by simpa using hk)]
  simp

theorem word_bit (idx : Nat → Nat → Nat) (y x0 z k : Nat) (hk : k < 16) :
    bitsToNat (tileBits idx y x0 z) / 2 ^ (15 - k) % 2 =
      idx (x0 + k) y / 2 ^ z % 2 := by
  have hlen := tileBits_length idx y x0 z
  have hbit := bitsToNat_getBit (tileBits idx y x0 z) k (by rw [hlen]; exact hk)
  rw [hlen, show 16 - 1 - k = 15 - k by omega] at hbit
  rw [hbit, tileBits_getD _ _ _ _ _ hk]
  exact toNat_decide_eq _ (Nat.mod_lt _ (by norm_num))

theorem hi_byte_bit (wd k : Nat) (hk : k < 8) :
    wd / 256 / 2 ^ (7 - k) % 2 = wd / 2 ^ (15 - k) % 2 := by
  rw [Nat.div_div_eq_div_mul]
  rw [show (256 : Nat) * 2 ^ (7 - k) = 2 ^ (15 - k) from by
    rw [show (256 : Nat) = 2 ^ 8 from by norm_num, ← pow_add]
    congr 1
    omega]

theorem lo_byte_bit (wd k : Nat) (h8 : 8 ≤ k) (hk : k < 16) :
    wd % 256 / 2 ^ (15 - k) % 2 = wd / 2 ^ (15 - k) % 2 := by
  rw [show (256 : Nat) = 2 ^ 8 from by norm_num]
  conv_rhs => rw [← Nat.div_add_mod wd (2 ^ 8)]
  rw [div_pow_mod_two_add 8 (wd / 2 ^ 8) (wd % 2 ^ 8) (15 - k) (by omega)]

theorem foldl_add_eq_sum (f : Nat → Nat) (L : List Nat) :
    ∀ a : Nat, L.foldl (fun c p => c + f p) a = a + (L.map f).sum := by
  induction L with
  | nil => intro a; simp
  | cons b T ih =>
    intro a
    rw [List.foldl_cons, ih, List.map_cons, List.sum_cons]
    ring

theorem sum_bits_range (m v : Nat) :
    ((List.range m).map (fun p => v / 2 ^ p % 2 * 2 ^ p)).sum = v % 2 ^ m := by
  induction m with
  | zero => simp [Nat.mod_one]
  | succ m ih =>
    rw [List.range_succ, List.map_append, List.sum_append, ih]
    simp only [List.map_cons, List.map_nil, List.sum_cons, List.sum_nil, add_zero]
    rw [Nat.mod_pow_succ]
    ring

theorem mypixBlit_row_length (idx : Nat → Nat → Nat) (w d y : Nat) :
    ((List.range (w / 16)).flatMap fun t =>
      (List.range (1 <<< d)).flatMap fun z =>
        [bitsToNat (tileBits idx y (16 * t) z) / 256,
         bitsToNat (tileBits idx y (16 * t) z) % 256]).length
      = w / 16 * ((1 <<< d) * 2) := by
  rw [flatMap_length_const _ ((1 <<< d) * 2) _ ?ht, List.length_range]
  case ht =>
    intro t _
    rw [flatMap_length_const _ 2 _ ?hz, List.length_range]
    case hz =>
      intro z _
      rfl

theorem mypixBlit_length (idx : Nat → Nat → Nat) (w h d : Nat) :
    (mypixBlit idx w h d).length = h * (w / 16 * ((1 <<< d) * 2)) := by
  rw [mypixBlit]
  rw [flatMap_length_const _ (w / 16 * ((1 <<< d) * 2)) _
    (fun y _ => mypixBlit_row_length idx w d y)]
  rw [List.length_range]

theorem mypixBlit_getD (idx : Nat → Nat → Nat) (w h d W y t z b : Nat)
    (hW : w = 16 * W) (hy : y < h) (ht : t < W) (hz : z < 2 ^ d) (hb : b < 2) :
    (mypixBlit idx w h d).getD (((y * W + t) * 2 ^ d + z) * 2 + b) 0 =
      (if b = 0 then bitsToNat (tileBits idx y (16 * t) z) / 256
       else bitsToNat (tileBits idx y (16 * t) z) % 256) := by
  have hP1 : (1 : Nat) <<< d = 2 ^ d := by rw [Nat.shiftLeft_eq, one_mul]
  have hW16 : w / 16 = W := by omega
  rw [mypixBlit, hW16, hP1]
  have hrowlen : ∀ yy ∈ List.range h, ((List.range W).flatMap fun tt =>
      (List.range (2 ^ d)).flatMap fun zz =>
        [bitsToNat (tileBits idx yy (16 * tt) zz) / 256,
         bitsToNat (tileBits idx yy (16 * tt) zz) % 256]).length
        = W * (2 ^ d * 2) := by
    intro yy _
    rw [flatMap_length_const _ (2 ^ d * 2) _ ?htt, List.length_range]
    case htt =>
      intro tt _
      rw [flatMap_length_const _ 2 _ ?hzz, List.length_range]
      case hzz =>
        intro zz _
        rfl
  have hzb : z * 2 + b < 2 ^ d * 2 := by omega
  have hr1 : t * (2 ^ d * 2) + (z * 2 + b) < W * (2 ^ d * 2) := by
    have h1 : t * (2 ^ d * 2) + 2 ^ d * 2 = (t + 1) * (2 ^ d * 2) := by ring
    have h2 : (t + 1) * (2 ^ d * 2) ≤ W * (2 ^ d * 2) :=
      Nat.mul_le_mul_right _ ht
    omega
  rw [show ((y * W + t) * 2 ^ d + z) * 2 + b
      = y * (W * (2 ^ d * 2)) + (t * (2 ^ d * 2) + (z * 2 + b)) by ring]
  rw [flatMap_getD_aux _ (W * (2 ^ d * 2)) _ y _ hrowlen (by simpa using hy) hr1]
  rw [getD_range h y hy]
  rw [flatMap_getD_aux _ (2 ^ d * 2) _ t _ ?hmid (by simpa using ht) hzb]
  case hmid =>
    intro tt _
    rw [flatMap_length_const _ 2 _ ?hzz2, List.length_range]
    case hzz2 =>
      intro zz _
      rfl
  rw [getD_range W t ht]
  rw [flatMap_getD_aux _ 2 _ z _ ?hinner (by simpa using hz) hb]
  case hinner =>
    intro zz _
    rfl
  rw [getD_range _ z hz]
  match b, hb with
  | 0, _ => rfl
  | 1, _ => rfl

/-- C2: bitplane round trip.  For any index matrix of a supported
geometry (width a multiple of 16) whose entry at a pixel is below
`2^planes` (`planes = 1<<d`), packing with the blit loop of
`mypix_from_png` and reading the pixel back with `get_st_pixel` (over any
34-byte header) reproduces the entry. -/
theorem C2_bitplane_round_trip (idx : Nat → Nat → Nat) (w h d x y : Nat)
    (hdr : List Nat) (hhdr : hdr.length = 34) (hw : 16 ∣ w)
    (hx : x < w) (hy : y < h) (hidx : idx x y < 2 ^ (1 <<< d)) :
    get_st_pixel (hdr ++ mypixBlit idx w h d) w d x y = idx x y := by
  obtain ⟨W, hW⟩ := hw
  have hP1 : (1 : Nat) <<< d = 2 ^ d := by rw [Nat.shiftLeft_eq, one_mul]
  rw [hP1] at hidx
  rw [get_st_pixel, hP1]
  have hw16 : (w + 15) / 16 * 16 = w := by omega
  have hbpl : w * 2 ^ d / 8 = 2 * W * 2 ^ d := by
    rw [hW, show 16 * W * 2 ^ d = 8 * (2 * W * 2 ^ d) by ring]
    exact Nat.mul_div_cancel_left _ (by norm_num)
  have htW : x / 16 < W := by omega
  have hx8 : x / 8 % 2 = x % 16 / 8 := by omega
  have hkd8 : x % 16 / 8 < 2 := by omega
  have hbyte : ∀ p ∈ List.range (2 ^ d),
      (hdr ++ mypixBlit idx w h d).getD
          (y * ((w + 15) / 16 * 16 * 2 ^ d / 8) + x / 16 * 2 ^ (d + 1) +
            x / 8 % 2 + 34 + 2 * p) 0 / 2 ^ (7 - x % 8) % 2 * 2 ^ p
        = idx x y / 2 ^ p % 2 * 2 ^ p := by
    intro p hp
    have hp' := List.mem_range.mp hp
    congr 1
    rw [hw16, hbpl, hx8, pow_succ]
    rw [show y * (2 * W * 2 ^ d) + x / 16 * (2 ^ d * 2) + x % 16 / 8 + 34 + 2 * p
      = 34 + (((y * W + x / 16) * 2 ^ d + p) * 2 + x % 16 / 8) by ring]
    rw [List.getD_append_right _ _ _ _ (by rw [hhdr]; omega)]
    rw [show 34 + (((y * W + x / 16) * 2 ^ d + p) * 2 + x % 16 / 8) - hdr.length
      = ((y * W + x / 16) * 2 ^ d + p) * 2 + x % 16 / 8 by rw [hhdr]; omega]
    rw [mypixBlit_getD idx w h d W y (x / 16) p (x % 16 / 8) hW hy htW hp' hkd8]
    by_cases hk8 : x % 16 < 8
    · rw [if_pos (by omega)]
      rw [show x % 8 = x % 16 by omega]
      rw [hi_byte_bit _ (x % 16) (by omega)]
      rw [word_bit idx y (16 * (x / 16)) p (x % 16) (by omega)]
      rw [show 16 * (x / 16) + x % 16 = x by omega]
    · rw [if_neg (by omega)]
      rw [show x % 8 = x % 16 - 8 by omega]
      rw [show 7 - (x % 16 - 8) = 15 - x % 16 by omega]
      rw [lo_byte_bit _ (x % 16) (by omega) (by omega)]
      rw [word_bit idx y (16 * (x / 16)) p (x % 16) (by omega)]
      rw [show 16 * (x / 16) + x % 16 = x by omega]
  rw [foldl_add_eq_sum]
  rw [List.map_congr_left hbyte]
  rw [sum_bits_range]
  rw [Nat.zero_add]
  exact Nat.mod_eq_of_lt hidx

/-- Witness for C2 on a 16x1, 4-plane matrix at pixel (5,0). -/
theorem C2_bitplane_round_trip_witness :
    get_st_pixel
        (List.replicate 34 0 ++ mypixBlit (fun u v => (u + v) % 4) 16 1 2)
        16 2 5 0
      = (fun u v => (u + v) % 4) 5 0 :=
  C2_bitplane_round_trip (fun u v => (u + v) % 4) 16 1 2 5 0
    (List.replicate 34 0) (by simp) (by decide) (by decide) (by decide) (by decide)

/-- C7: bitplane packing layout.  The packed output of the blit loop is
exactly `w*h*(1<<d)/8` bytes (`d = log2Planes`), and for each row `y`,
tile `t`, plane `z`, the two bytes at offset `((y*(w/16)+t)*(1<<d)+z)*2`
form one big-endian 16-bit word whose bit `15-k` (k = 0..15 left to
right) is bit `z` of the palette index of pixel `16*t+k` of row `y`;
consecutive `z` offsets show all planes of one tile emitted before the
next tile. -/
theorem C7_bitplane_layout (idx : Nat → Nat → Nat) (w h d : Nat) (hw : 16 ∣ w) :
    (mypixBlit idx w h d).length = w * h * (1 <<< d) / 8 ∧
    (∀ y t z k, y < h → t < w / 16 → z < 1 <<< d → k < 16 →
      ((mypixBlit idx w h d).getD (((y * (w / 16) + t) * (1 <<< d) + z) * 2) 0 * 256 +
        (mypixBlit idx w h d).getD (((y * (w / 16) + t) * (1 <<< d) + z) * 2 + 1) 0)
        / 2 ^ (15 - k) % 2 = idx (16 * t + k) y / 2 ^ z % 2) := by
  obtain ⟨W, hW⟩ := hw
  have hP1 : (1 : Nat) <<< d = 2 ^ d := by rw [Nat.shiftLeft_eq, one_mul]
  have hW16 : w / 16 = W := by omega
  constructor
  · rw [mypixBlit_length, hP1, hW16, hW]
    rw [show 16 * W * h * 2 ^ d = 8 * (h * (W * (2 ^ d * 2))) by ring]
    rw [Nat.mul_div_cancel_left _ (by norm_num)]
  · intro y t z k hy ht hz hk
    rw [hP1] at hz
    rw [hP1, hW16]
    rw [hW16] at ht
    have hb0 := mypixBlit_getD idx w h d W y t z 0 hW hy ht hz (by omega)
    have hb1 := mypixBlit_getD idx w h d W y t z 1 hW hy ht hz (by omega)
    rw [Nat.add_zero] at hb0
    rw [if_pos rfl] at hb0
    rw [if_neg (by omega)] at hb1
    rw [hb0, hb1]
    rw [show bitsToNat (tileBits idx y (16 * t) z) / 256 * 256 +
        bitsToNat (tileBits idx y (16 * t) z) % 256
      = bitsToNat (tileBits idx y (16 * t) z) from by
        rw [Nat.mul_comm]
        exact Nat.div_add_mod _ 256]
    exact word_bit idx y (16 * t) z k hk

/-- Witness for C7 on a 16x1 single-plane matrix, word 0, bit of pixel 3. -/
theorem C7_bitplane_layout_witness :
    (mypixBlit (fun u _ => u % 2) 16 1 0).length = 16 * 1 * (1 <<< 0) / 8 ∧
    ((mypixBlit (fun u _ => u % 2) 16 1 0).getD 0 0 * 256 +
      (mypixBlit (fun u _ => u % 2) 16 1 0).getD 1 0) / 2 ^ (15 - 3) % 2
      = (fun u _ => u % 2) (16 * 0 + 3) 0 / 2 ^ 0 % 2 := by
  obtain ⟨hlen, hbit⟩ := C7_bitplane_layout (fun u _ => u % 2) 16 1 0 (by decide)
  refine ⟨hlen, ?_⟩
  have hb := hbit 0 0 0 3 (by decide) (by decide) (by decide) (by decide)
  simpa using hb

end Pngtopi1
